import Mathlib

/-!
Verification development for the JD–Resume matcher core
(`extract_text_from_file`, `extract_contacts`, `run_matching`).

Texts are modelled as `List Char` (ASCII fragment of Python's `str`), floats as `ℚ`,
and the regex-based extraction routines as deterministic scanners implementing the
left-to-right, non-overlapping (`re.findall`) semantics of the three patterns used
by the program:

* `(\d+(?:\.\d+)?)\s*(?:years|yrs|year)` (case-insensitive) for experience years,
* `[\w\.-]+@[\w\.-]+\.[a-zA-Z]{2,}` for emails,
* `\+?\d[\d \-]{7,}\d` for phones.
-/

namespace JDMatcher

/-- The `\d` character class (ASCII model). -/
def isDigitChar (c : Char) : Bool := c.isDigit

/-- The `\s` character class (ASCII model: space, tab, newline, CR, VT, FF). -/
def isSpaceChar (c : Char) : Bool :=
  c = ' ' || c = '\t' || c = '\n' || c = '\r' || c = '\x0b' || c = '\x0c'

/-- The `\w` character class (ASCII model: letters, digits, underscore). -/
def isWordChar (c : Char) : Bool := c.isAlphanum || c = '_'

/-- The `[\w\.-]` character class used by both sides of the email pattern. -/
def emailChar (c : Char) : Bool := isWordChar c || c = '.' || c = '-'

/-- The `[\d \-]` character class used in the middle of the phone pattern. -/
def phoneChar (c : Char) : Bool := c.isDigit || c = ' ' || c = '-'

/-- Value of a digit string, most significant digit first. -/
def digitsToNat (ds : List Char) : Nat :=
  ds.foldl (fun acc c => acc * 10 + (c.toNat - '0'.toNat)) 0

/-- Exact rational value of `intPart.fracPart`, both given as digit strings. -/
def parseDecimal (intPart fracPart : List Char) : ℚ :=
  (digitsToNat intPart : ℚ) + (digitsToNat fracPart : ℚ) / (10 : ℚ) ^ fracPart.length

/-- Python `float` applied to a captured group of shape `digits` or `digits.digits`,
as an exact rational. -/
def pyFloat (s : List Char) : ℚ :=
  parseDecimal (s.takeWhile isDigitChar) (s.drop ((s.takeWhile isDigitChar).length + 1))

/-- One attempted match of `(\d+(?:\.\d+)?)\s*(?:years|yrs|year)` (IGNORECASE) at the
head of `l`: returns the captured group (the decimal-number string) and the total
number of characters consumed by the match, or `none` when the pattern does not
match here.  Greedy sub-expressions are deterministic for this pattern: backtracking
out of the maximal digit/whitespace runs can never lead to a later success, and the
alternation tries `years`, then `yrs`, then `year`, in that order. -/
def tryExpMatch (l : List Char) : Option (List Char × Nat) :=
  let ip := l.takeWhile isDigitChar
  if ip.isEmpty then none else
  let r1 := l.drop ip.length
  let fp := match r1 with
    | '.' :: t =>
        let d2 := t.takeWhile isDigitChar
        if d2.isEmpty then [] else '.' :: d2
    | _ => []
  let r2 := r1.drop fp.length
  let ws := r2.takeWhile isSpaceChar
  let r3 := (r2.drop ws.length).map Char.toLower
  let tok : Option Nat :=
    if ("years".toList).isPrefixOf r3 then some 5
    else if ("yrs".toList).isPrefixOf r3 then some 3
    else if ("year".toList).isPrefixOf r3 then some 4
    else none
  match tok with
  | none => none
  | some tn => some (ip ++ fp, ip.length + fp.length + ws.length + tn)

/-- `re.findall` loop for the experience pattern: try a match at every position,
left to right; on a success emit the captured group and resume after the match
(non-overlapping semantics).  `fuel` bounds the number of iterations; every
iteration consumes at least one character, so `text.length` fuel is enough. -/
def findExpCaptures : Nat → List Char → List (List Char)
  | 0, _ => []
  | _ + 1, [] => []
  | fuel + 1, l@(_ :: t) =>
    match tryExpMatch l with
    | some (m, n) => m :: findExpCaptures fuel (l.drop n)
    | none => findExpCaptures fuel t

/-- `[float(m) for m in re.findall(r"(\d+(?:\.\d+)?)\s*(?:years|yrs|year)", text, re.IGNORECASE)]`
(line 67 of the program). -/
def findExpNums (text : List Char) : List ℚ :=
  (findExpCaptures text.length text).map pyFloat

/-- Python `max(nums) if nums else 0.0`. -/
def pyListMax : List ℚ → ℚ
  | [] => 0
  | x :: xs => xs.foldl max x

/-- `experience = max(exp_nums) if exp_nums else 0.0` (line 68 of the program). -/
def experienceOf (text : List Char) : ℚ := pyListMax (findExpNums text)

/-- Greedy backtracking of `[\w\.-]+\.[a-zA-Z]{2,}` over the domain run `dom`
(the maximal `[\w\.-]` run after the `@`): looking for the largest prefix length
`k` such that `dom` has a literal `.` at index `k` followed by at least two
letters; returns that `k` together with the maximal letter run after the dot.
The argument counts down from the largest candidate index. -/
def bestDomSplit (dom : List Char) : Nat → Option (Nat × List Char)
  | 0 => none
  | k + 1 =>
    if h : k + 1 < dom.length then
      if dom.get ⟨k + 1, h⟩ = '.' then
        if 2 ≤ ((dom.drop (k + 2)).takeWhile Char.isAlpha).length then
          some (k + 1, (dom.drop (k + 2)).takeWhile Char.isAlpha)
        else bestDomSplit dom k
      else bestDomSplit dom k
    else bestDomSplit dom k

/-- One attempted match of `[\w\.-]+@[\w\.-]+\.[a-zA-Z]{2,}` at the head of `l`:
returns the number of characters consumed (the matched substring is `l.take n`),
or `none`.  The local part is the maximal `[\w\.-]` run (no backtracking can help,
since `@` is not in the class); the domain side backtracks greedily via
`bestDomSplit`. -/
def tryEmailMatch (l : List Char) : Option Nat :=
  let lp := l.takeWhile emailChar
  if lp.isEmpty then none else
  match l.drop lp.length with
  | '@' :: r2 =>
    let dom := r2.takeWhile emailChar
    match bestDomSplit dom (dom.length - 1) with
    | some (k, tld) => some (lp.length + 1 + k + 1 + tld.length)
    | none => none
  | _ => none

/-- `re.findall` loop for `EMAIL_REGEX`, keeping the start position of each match:
try a match at every position, left to right; on a success emit
`(position, matched substring)` and resume after the match. -/
def findEmailsAux : Nat → Nat → List Char → List (Nat × List Char)
  | 0, _, _ => []
  | _ + 1, _, [] => []
  | fuel + 1, pos, l@(_ :: t) =>
    match tryEmailMatch l with
    | some n => (pos, l.take n) :: findEmailsAux fuel (pos + n) (l.drop n)
    | none => findEmailsAux fuel (pos + 1) t

/-- `re.findall(EMAIL_REGEX, text)` (line 50 of the program). -/
def findEmails (text : List Char) : List (List Char) :=
  (findEmailsAux text.length 0 text).map Prod.snd

/-- Greedy backtracking of `[\d \-]{7,}\d` over the run `run` (the maximal
`[\d \-]` run after the leading digit): looking for the largest index `k ≥ 7`
such that `run` has a digit at index `k`; counts down from the largest
candidate index. -/
def bestPhoneSplit (run : List Char) : Nat → Option Nat
  | 0 => none
  | k + 1 =>
    if 7 ≤ k + 1 then
      if h : k + 1 < run.length then
        if isDigitChar (run.get ⟨k + 1, h⟩) then some (k + 1) else bestPhoneSplit run k
      else bestPhoneSplit run k
    else none

/-- One attempted match of `\+?\d[\d \-]{7,}\d` at the head of `l`: returns the
number of characters consumed, or `none`.  The optional `+` is deterministic
(dropping it would require a digit where the `+` stands). -/
def tryPhoneMatch (l : List Char) : Option Nat :=
  let pl := match l with
    | '+' :: t => (1, t)
    | _ => (0, l)
  match pl.2 with
  | c :: r =>
    if isDigitChar c then
      let run := r.takeWhile phoneChar
      match bestPhoneSplit run (run.length - 1) with
      | some k => some (pl.1 + 1 + k + 1)
      | none => none
    else none
  | [] => none

/-- `re.findall` loop for `PHONE_REGEX`. -/
def findPhonesAux : Nat → List Char → List (List Char)
  | 0, _ => []
  | _ + 1, [] => []
  | fuel + 1, l@(_ :: t) =>
    match tryPhoneMatch l with
    | some n => l.take n :: findPhonesAux fuel (l.drop n)
    | none => findPhonesAux fuel t

/-- `re.findall(PHONE_REGEX, text)` (line 51 of the program). -/
def findPhones (text : List Char) : List (List Char) :=
  findPhonesAux text.length text

/-- Python `str.capitalize()`: first character uppercased, all remaining
characters lowercased. -/
def pyCapitalize : List Char → List Char
  | [] => []
  | c :: t => c.toUpper :: t.map Char.toLower

/-- `re.split(r'[\._]', user)`: split on every `.` or `_`, keeping empty pieces. -/
def splitDotUnderscore : List Char → List (List Char)
  | [] => [[]]
  | c :: t =>
    match splitDotUnderscore t with
    | [] => [[]]
    | h :: r => if c = '.' || c = '_' then [] :: h :: r else (c :: h) :: r

/-- `extract_contacts` (lines 49–57 of the program): returns
`(name, ', '.join(emails), ', '.join(phones))`. -/
def extract_contacts (text : List Char) : List Char × List Char × List Char :=
  let emails := findEmails text
  let phones := findPhones text
  let name := match emails with
    | [] => []
    | e :: _ =>
      let user := e.takeWhile (fun c => c != '@')
      let parts := splitDotUnderscore user
      List.intercalate [' '] ((parts.filter (fun p => !p.isEmpty)).map pyCapitalize)
  (name, List.intercalate (", ".toList) emails, List.intercalate (", ".toList) phones)

/-- `os.path.basename` (POSIX): the part of the path after the last `/`. -/
def basenameOf (p : List Char) : List Char :=
  (p.reverse.takeWhile (fun c => c != '/')).reverse

/-- The extension part of `os.path.splitext` (POSIX): everything from the last
dot of the basename on, unless every character of the basename before that dot
is itself a dot (leading dots do not start an extension). -/
def splitextExt (p : List Char) : List Char :=
  let base := basenameOf p
  let revSuf := base.reverse.takeWhile (fun c => c != '.')
  if revSuf.length = base.length then []
  else
    let stem := base.take (base.length - revSuf.length - 1)
    if stem.any (fun c => c != '.') then '.' :: revSuf.reverse else []

/-- `os.path.splitext(path)[1].lower()` (line 27 of the program). -/
def extOf (p : List Char) : List Char := (splitextExt p).map Char.toLower

/-- An in-memory XML element tree (`xml.etree.ElementTree`): tag, text (the text
directly under the element, empty for Python `None`), children in document order. -/
inductive XmlElem where
  | node (tag : List Char) (text : List Char) (children : List XmlElem)

/-- `node.tag.endswith('}t') or node.tag == 't'` (line 41 of the program). -/
def isTTag (tag : List Char) : Bool :=
  ("\x7dt".toList).isSuffixOf tag || tag == "t".toList

mutual
/-- The DOCX fallback accumulation (lines 40–43 of the program): iterate the tree
in document order (preorder); for every element whose tag is a `t` tag and whose
text is non-empty, append the text followed by a single space. -/
def collectT : XmlElem → List Char
  | .node tag txt children =>
    (if isTTag tag && !txt.isEmpty then txt ++ [' '] else []) ++ collectTList children
def collectTList : List XmlElem → List Char
  | [] => []
  | e :: es => collectT e ++ collectTList es
end

/-- A document as seen by `extract_text_from_file`: its path together with the
outcomes of the three fallible library calls the function can make on that path.
`none` models the call raising an exception. -/
structure Doc where
  path : List Char
  /-- result of `pdfminer`'s `extract_text(path)` -/
  pdfResult : Option (List Char)
  /-- paragraph texts of `docx.Document(path)` -/
  docxParagraphs : Option (List (List Char))
  /-- parsed `word/document.xml` from the ZIP archive (none: the archive or the
  XML entry is missing/corrupt, or the XML does not parse) -/
  docxXml : Option XmlElem

/-- `extract_text_from_file` (lines 26–47 of the program).  Every exception of a
library call is caught: the DOCX structured-reader failure falls back to the
archive path, and any remaining failure (and any unknown extension) degrades to
the empty string. -/
def extract_text_from_file (d : Doc) : List Char :=
  if extOf d.path = ".pdf".toList then
    match d.pdfResult with
    | some t => t
    | none => []
  else if extOf d.path = ".docx".toList then
    match d.docxParagraphs with
    | some ps => List.intercalate ("\n".toList) ps
    | none =>
      match d.docxXml with
      | some tree => collectT tree
      | none => []
  else []

/-- Case-insensitive literal substring test: `re.search(re.escape(term), text,
re.IGNORECASE)` is a match iff the escaped (hence literal) pattern occurs as a
substring, up to ASCII case. -/
def containsSub (pat : List Char) : List Char → Bool
  | [] => pat.isEmpty
  | l@(_ :: t) => pat.isPrefixOf l || containsSub pat t

/-- `re.search(re.escape(term), text, flags=re.IGNORECASE) is not None`. -/
def searchCI (term text : List Char) : Bool :=
  containsSub (term.map Char.toLower) (text.map Char.toLower)

/-- The list comprehension `[t for t in terms if re.search(re.escape(t), text,
flags=re.IGNORECASE)]` (lines 69 and 71–73 of the program). -/
def matchedTerms (terms : List (List Char)) (text : List Char) : List (List Char) :=
  terms.filter (fun t => searchCI t text)

/-- Python's banker's rounding of a rational to the nearest integer
(round-half-to-even). -/
def roundHalfEven (q : ℚ) : ℤ :=
  if q - ⌊q⌋ < 1/2 then ⌊q⌋
  else if 1/2 < q - ⌊q⌋ then ⌊q⌋ + 1
  else if Even ⌊q⌋ then ⌊q⌋ else ⌊q⌋ + 1

/-- Python `round(x, 2)` on an exact rational. -/
def pyRound2 (q : ℚ) : ℚ := (roundHalfEven (q * 100) : ℚ) / 100

/-- `round(len(matched_kw)/len(keywords)*100, 2) if keywords else 0.0`
(line 70 of the program). -/
def match_pct (keywords : List (List Char)) (text : List Char) : ℚ :=
  if keywords.isEmpty then 0
  else pyRound2 (((matchedTerms keywords text).length : ℚ) / (keywords.length : ℚ) * 100)

/-- `req = exp_req - 1 if (relax and exp_req > 0) else exp_req`
(line 76 of the program). -/
def effectiveReq (exp_req : ℚ) (relax : Bool) : ℚ :=
  if relax && decide (0 < exp_req) then exp_req - 1 else exp_req

/-- Lines 74–77 of the program: `exp_ok` stays `True` when no minimum experience
is configured, and otherwise is `experience >= req`. -/
def exp_ok (exp_req : Option ℚ) (relax : Bool) (experience : ℚ) : Bool :=
  match exp_req with
  | none => true
  | some m => decide (effectiveReq m relax ≤ experience)

/-- One row of the report (the dict literal of lines 79–91 of the program). -/
structure ResumeRecord where
  filename : List Char
  name : List Char
  email : List Char
  phone : List Char
  domain : List Char
  tools : List Char
  skillset : List Char
  experienceYears : ℚ
  experienceMatch : Bool
  matchedKeywords : List Char
  matchPercentage : ℚ
deriving DecidableEq

/-- The loop body of `run_matching` (lines 66–91 of the program): the record a
single document contributes. -/
def recordOf (keywords : List (List Char)) (exp_req : Option ℚ) (relax : Bool)
    (domains tools skillsets : List (List Char)) (d : Doc) : ResumeRecord :=
  let text := extract_text_from_file d
  let experience := experienceOf text
  let matched_kw := matchedTerms keywords text
  let matched_domains := matchedTerms domains text
  let matched_tools := matchedTerms tools text
  let matched_skills := matchedTerms skillsets text
  let c := extract_contacts text
  { filename := basenameOf d.path
    name := c.1
    email := c.2.1
    phone := c.2.2
    domain := List.intercalate [';'] matched_domains
    tools := List.intercalate [';'] matched_tools
    skillset := List.intercalate [';'] matched_skills
    experienceYears := experience
    experienceMatch := exp_ok exp_req relax experience
    matchedKeywords := List.intercalate [';'] matched_kw
    matchPercentage := match_pct keywords text }

/-- `run_matching` (lines 60–93 of the program): the records of the returned
`DataFrame`, accumulated by appending one record per document, in input order.
The progress signal and log lines are side channels with no effect on the
result and are not modelled. -/
def run_matching (paths : List Doc) (keywords : List (List Char)) (exp_req : Option ℚ)
    (relax : Bool) (domains tools skillsets : List (List Char)) : List ResumeRecord :=
  paths.foldl
    (fun records p => records ++ [recordOf keywords exp_req relax domains tools skillsets p]) []

/-! ### Shared helper lemmas -/

theorem foldl_append_map {α β : Type} (f : α → β) :
    ∀ (l : List α) (acc : List β), l.foldl (fun r p => r ++ [f p]) acc = acc ++ l.map f := by
  intro l
  induction l with
  | nil => intro acc; simp
  | cons a t ih => intro acc; simp [ih, List.append_assoc]

theorem run_matching_eq_map (paths : List Doc) (kws : List (List Char)) (er : Option ℚ)
    (rx : Bool) (ds ts ss : List (List Char)) :
    run_matching paths kws er rx ds ts ss = paths.map (recordOf kws er rx ds ts ss) := by
  unfold run_matching
  simpa using foldl_append_map (recordOf kws er rx ds ts ss) paths []

theorem init_le_foldl_max : ∀ (xs : List ℚ) (x : ℚ), x ≤ xs.foldl max x := by
  intro xs
  induction xs with
  | nil => intro x; exact le_refl x
  | cons y ys ih => intro x; exact le_trans (le_max_left x y) (ih (max x y))

theorem mem_le_foldl_max : ∀ (xs : List ℚ) (x v : ℚ), v ∈ xs → v ≤ xs.foldl max x := by
  intro xs
  induction xs with
  | nil => intro x v hv; cases hv
  | cons y ys ih =>
    intro x v hv
    rcases List.mem_cons.1 hv with h | h
    · subst h; exact le_trans (le_max_right x v) (init_le_foldl_max ys (max x v))
    · exact ih (max x y) v h

theorem foldl_max_mem : ∀ (xs : List ℚ) (x : ℚ), xs.foldl max x ∈ x :: xs := by
  intro xs
  induction xs with
  | nil => intro x; simp
  | cons y ys ih =>
    intro x
    have h := ih (max x y)
    rw [List.foldl_cons]
    rcases List.mem_cons.1 h with h1 | h1
    · rcases max_choice x y with hm | hm
      · rw [h1, hm]; simp
      · rw [h1, hm]; simp
    · simp [h1]

theorem searchCI_nil (k : List Char) (hk : k ≠ []) : searchCI k [] = false := by
  unfold searchCI containsSub
  simp [hk]

theorem matchedTerms_nil (terms : List (List Char)) (h : ∀ k ∈ terms, k ≠ []) :
    matchedTerms terms [] = [] := by
  unfold matchedTerms
  refine List.filter_eq_nil_iff.2 ?_
  intro a ha
  simp [searchCI_nil a (h a ha)]

theorem pyRound2_zero : pyRound2 0 = 0 := by
  unfold pyRound2 roundHalfEven
  norm_num

theorem roundHalfEven_nonneg {q : ℚ} (h : 0 ≤ q) : 0 ≤ roundHalfEven q := by
  unfold roundHalfEven
  have hf : (0 : ℤ) ≤ ⌊q⌋ := Int.floor_nonneg.2 h
  split_ifs <;> omega

theorem roundHalfEven_le_of_le {q : ℚ} {n : ℤ} (h : q ≤ (n : ℚ)) : roundHalfEven q ≤ n := by
  unfold roundHalfEven
  have hfl : ⌊q⌋ ≤ n := by
    have h2 := Int.floor_le_floor h
    simpa using h2
  have hq : (⌊q⌋ : ℚ) ≤ q := Int.floor_le q
  have hstep : ¬ (q - (⌊q⌋ : ℚ) < 1/2) → ⌊q⌋ + 1 ≤ n := by
    intro hge
    push_neg at hge
    have h1 : (⌊q⌋ : ℚ) + 1/2 ≤ q := by linarith
    have h2 : (⌊q⌋ : ℚ) < (n : ℚ) := by linarith
    have h3 : ⌊q⌋ < n := by exact_mod_cast h2
    omega
  split_ifs with h1 h2 h3
  · exact hfl
  · exact hstep h1
  · exact hfl
  · exact hstep h1

theorem pyRound2_nonneg {q : ℚ} (h : 0 ≤ q) : 0 ≤ pyRound2 q := by
  unfold pyRound2
  have h0 : (0 : ℤ) ≤ roundHalfEven (q * 100) := roundHalfEven_nonneg (by linarith)
  have h1 : (0 : ℚ) ≤ (roundHalfEven (q * 100) : ℚ) := by exact_mod_cast h0
  linarith

theorem pyRound2_le_100 {q : ℚ} (h : q ≤ 100) : pyRound2 q ≤ 100 := by
  unfold pyRound2
  have h0 : roundHalfEven (q * 100) ≤ (10000 : ℤ) := by
    refine roundHalfEven_le_of_le ?_
    push_cast
    linarith
  have h1 : (roundHalfEven (q * 100) : ℚ) ≤ (10000 : ℚ) := by exact_mod_cast h0
  linarith

theorem match_pct_nonneg (kws : List (List Char)) (text : List Char) :
    0 ≤ match_pct kws text := by
  unfold match_pct
  split_ifs with h
  · exact le_refl 0
  · refine pyRound2_nonneg ?_
    positivity

theorem match_pct_le_100 (kws : List (List Char)) (text : List Char) :
    match_pct kws text ≤ 100 := by
  unfold match_pct
  split_ifs with h
  · norm_num
  · refine pyRound2_le_100 ?_
    have hne : kws ≠ [] := by simpa [List.isEmpty_iff] using h
    have hlen : 0 < kws.length := List.length_pos.2 hne
    have hle : (matchedTerms kws text).length ≤ kws.length := by
      unfold matchedTerms
      exact (List.filter_sublist _).length_le
    have hq : ((matchedTerms kws text).length : ℚ) / (kws.length : ℚ) ≤ 1 := by
      rw [div_le_one (by exact_mod_cast hlen)]
      exact_mod_cast hle
    linarith

theorem takeWhile_length_le (p : Char → Bool) : ∀ l : List Char,
    (l.takeWhile p).length ≤ l.length := by
  intro l
  induction l with
  | nil => exact Nat.le_refl 0
  | cons a t ih =>
    by_cases hp : p a
    · rw [List.takeWhile_cons_of_pos hp]
      simpa using ih
    · rw [List.takeWhile_cons_of_neg hp]
      simp

theorem takeWhile_drop_split (p : Char → Bool) : ∀ l : List Char,
    l = l.takeWhile p ++ l.drop (l.takeWhile p).length := by
  intro l
  induction l with
  | nil => rfl
  | cons a t ih =>
    by_cases hp : p a
    · rw [List.takeWhile_cons_of_pos hp]
      simp only [List.length_cons, List.drop_succ_cons, List.cons_append]
      exact congrArg (List.cons a) ih
    · rw [List.takeWhile_cons_of_neg hp]
      simp

theorem takeWhile_eq_take_length (p : Char → Bool) : ∀ l : List Char,
    l.takeWhile p = l.take (l.takeWhile p).length := by
  intro l
  induction l with
  | nil => rfl
  | cons a t ih =>
    by_cases hp : p a
    · rw [List.takeWhile_cons_of_pos hp]
      simp only [List.length_cons, List.take_succ_cons]
      exact congrArg (List.cons a) ih
    · rw [List.takeWhile_cons_of_neg hp]
      rfl

theorem take_append_exact {α : Type} : ∀ (a b : List α) (m : Nat),
    (a ++ b).take (a.length + m) = a ++ b.take m := by
  intro a
  induction a with
  | nil => intro b m; simp
  | cons x xs ih =>
    intro b m
    rw [List.cons_append, List.length_cons, Nat.add_right_comm, List.take_succ_cons, ih]
    rfl

/-- The shape every string matched by `EMAIL_REGEX` has: a non-empty local part of
`[\w\.-]` characters, an `@`, a non-empty domain part of `[\w\.-]` characters, a
literal dot, and a top-level segment of at least two letters. -/
def emailShapeP (m : List Char) : Prop :=
  ∃ lp dom tld, m = lp ++ '@' :: (dom ++ '.' :: tld) ∧
    lp ≠ [] ∧ (∀ c ∈ lp, emailChar c = true) ∧
    dom ≠ [] ∧ (∀ c ∈ dom, emailChar c = true) ∧
    (∀ c ∈ tld, c.isAlpha = true) ∧ 2 ≤ tld.length

theorem bestDomSplit_spec (dom : List Char) : ∀ (k0 k : Nat) (tld : List Char),
    bestDomSplit dom k0 = some (k, tld) →
      1 ≤ k ∧ k < dom.length ∧ dom[k]? = some ('.' : Char) ∧
      tld = (dom.drop (k + 1)).takeWhile Char.isAlpha ∧ 2 ≤ tld.length := by
  intro k0
  induction k0 with
  | zero =>
    intro k tld h
    exact Option.noConfusion h
  | succ m ih =>
    intro k tld h
    rw [bestDomSplit] at h
    split_ifs at h with h1 h2 h3
    · injection h with h4
      injection h4 with h5 h6
      subst h5
      refine ⟨Nat.succ_le_succ (Nat.zero_le m), h1, ?_, h6.symm, by rw [← h6]; exact h3⟩
      rw [List.getElem?_eq_getElem h1]
      exact congrArg some h2
    · exact ih k tld h
    · exact ih k tld h
    · exact ih k tld h

theorem tryEmailMatch_spec (l : List Char) (n : Nat) (h : tryEmailMatch l = some n) :
    1 ≤ n ∧ emailShapeP (l.take n) := by
  simp only [tryEmailMatch] at h
  by_cases hlp : (l.takeWhile emailChar).isEmpty
  · rw [if_pos hlp] at h
    exact Option.noConfusion h
  rw [if_neg hlp] at h
  have hlpne : l.takeWhile emailChar ≠ [] := by
    simpa [List.isEmpty_iff] using hlp
  split at h
  next r2 heq =>
    split at h
    next k tld heq2 =>
      injection h with hn
      obtain ⟨hk1, hk2, hdot, htld, htl2⟩ :=
        bestDomSplit_spec (r2.takeWhile emailChar) _ k tld heq2
      constructor
      · omega
      obtain ⟨hklen, hget⟩ := List.getElem?_eq_some.1 hdot
      have hsplit : l = l.takeWhile emailChar ++ '@' :: r2 := by
        conv_lhs => rw [takeWhile_drop_split emailChar l]
        rw [heq]
      set LP := l.takeWhile emailChar with hLP
      set DOM := r2.takeWhile emailChar with hDOM
      have hdomsplit : r2 = DOM ++ r2.drop DOM.length := by
        rw [hDOM]
        exact takeWhile_drop_split emailChar r2
      have hdlen : tld.length ≤ DOM.length - (k + 1) := by
        have h1 := takeWhile_length_le Char.isAlpha (DOM.drop (k + 1))
        rw [← htld] at h1
        simpa [List.length_drop] using h1
      have htake : l.take n = LP ++ '@' :: (DOM.take k ++ '.' :: tld) := by
        have hn2 : n = LP.length + (k + (1 + tld.length) + 1) := by
          omega
        rw [hn2, hsplit, take_append_exact, List.take_succ_cons]
        have hle : k + (1 + tld.length) ≤ DOM.length := by omega
        have hr2take : r2.take (k + (1 + tld.length)) =
            DOM.take (k + (1 + tld.length)) := by
          conv_lhs => rw [hdomsplit]
          exact List.take_append_of_le_length hle
        rw [hr2take, List.take_add]
        have hdropk : DOM.drop k = '.' :: DOM.drop (k + 1) := by
          rw [List.drop_eq_getElem_cons hklen, hget]
        rw [hdropk]
        have htldtake : (DOM.drop (k + 1)).take tld.length = tld := by
          conv_rhs => rw [htld, takeWhile_eq_take_length]
          rw [← htld]
        rw [Nat.add_comm 1 tld.length, List.take_succ_cons, htldtake]
      rw [htake]
      refine ⟨LP, DOM.take k, tld, rfl, hlpne, ?_, ?_, ?_, ?_, htl2⟩
      · intro x hx
        rw [hLP] at hx
        exact List.mem_takeWhile_imp hx
      · have hlen : (DOM.take k).length = k := by
          rw [List.length_take]
          omega
        intro hnil
        rw [hnil] at hlen
        simp at hlen
        omega
      · intro x hx
        have hx2 : x ∈ DOM := List.take_subset k DOM hx
        rw [hDOM] at hx2
        exact List.mem_takeWhile_imp hx2
      · intro x hx
        rw [htld] at hx
        exact List.mem_takeWhile_imp hx
    next => exact Option.noConfusion h
  next => exact Option.noConfusion h

theorem findEmailsAux_mem_spec (text : List Char) : ∀ (fuel pos : Nat) (l : List Char),
    l = text.drop pos → ∀ pm ∈ findEmailsAux fuel pos l,
      pos ≤ pm.1 ∧ emailShapeP pm.2 ∧ (text.drop pm.1).take pm.2.length = pm.2 := by
  intro fuel
  induction fuel with
  | zero =>
    intro pos l _ pm hpm
    exact absurd hpm (by simp [findEmailsAux])
  | succ f ih =>
    intro pos l hl pm hpm
    cases l with
    | nil => exact absurd hpm (by simp [findEmailsAux])
    | cons c t =>
      rw [findEmailsAux] at hpm
      cases hm : tryEmailMatch (c :: t) with
      | some n =>
        rw [hm] at hpm
        rcases List.mem_cons.1 hpm with h1 | h1
        · subst h1
          obtain ⟨hn1, hshape⟩ := tryEmailMatch_spec (c :: t) n hm
          refine ⟨Nat.le_refl pos, hshape, ?_⟩
          rw [← hl]
          have hlen : ((c :: t).take n).length = min n (c :: t).length := by
            rw [List.length_take]
          rw [hlen]
          rcases Nat.le_total n (c :: t).length with hle | hle
          · rw [Nat.min_eq_left hle]
          · rw [Nat.min_eq_right hle, List.take_length,
              List.take_of_length_le hle]
        · have hrec := ih (pos + n) ((c :: t).drop n)
            (by rw [hl, List.drop_drop, Nat.add_comm]) pm h1
          exact ⟨by omega, hrec.2⟩
      | none =>
        rw [hm] at hpm
        have hrec := ih (pos + 1) t
          (by rw [show t = (c :: t).drop 1 from rfl, hl, List.drop_drop, Nat.add_comm]) pm hpm
        exact ⟨by omega, hrec.2⟩

theorem findEmailsAux_pairwise (text : List Char) : ∀ (fuel pos : Nat) (l : List Char),
    l = text.drop pos →
      (findEmailsAux fuel pos l).Pairwise (fun a b => a.1 < b.1) := by
  intro fuel
  induction fuel with
  | zero => intro pos l _; simp [findEmailsAux]
  | succ f ih =>
    intro pos l hl
    cases l with
    | nil => simp [findEmailsAux]
    | cons c t =>
      rw [findEmailsAux]
      cases hm : tryEmailMatch (c :: t) with
      | some n =>
        have hdrop : (c :: t).drop n = text.drop (pos + n) := by
          rw [hl, List.drop_drop, Nat.add_comm]
        refine List.Pairwise.cons ?_ (ih (pos + n) _ hdrop)
        intro pm hpm
        have hlb := (findEmailsAux_mem_spec text f (pos + n) _ hdrop pm hpm).1
        have hn1 := (tryEmailMatch_spec (c :: t) n hm).1
        simp only []
        omega
      | none =>
        have hdrop : t = text.drop (pos + 1) := by
          rw [show t = (c :: t).drop 1 from rfl, hl, List.drop_drop, Nat.add_comm]
        exact ih (pos + 1) t hdrop

/-! ### Claim theorems -/

/-- Claim C10: for every text and every criteria term list, the matched list is a
sublist of the term list preserving the supplied order, every matched term is an
element of the supplied list, the matched count never exceeds the list length,
and (concretely) matched terms come out in recruiter-supplied order even when
they occur in the text in the opposite order. -/
theorem matched_terms_sublist (text : List Char) (terms : List (List Char)) :
    (matchedTerms terms text).Sublist terms ∧
    (∀ x ∈ matchedTerms terms text, x ∈ terms) ∧
    (matchedTerms terms text).length ≤ terms.length ∧
    matchedTerms ["Verilog".toList, "TCL".toList] ("TCL appears before Verilog".toList) =
      ["Verilog".toList, "TCL".toList] := by
  refine ⟨List.filter_sublist _, ?_, (List.filter_sublist _).length_le, by decide⟩
  intro x hx
  exact List.mem_of_mem_filter hx

theorem matched_terms_sublist_witness :
    "Verilog".toList ∈ ["Verilog".toList, "TCL".toList] :=
  (matched_terms_sublist ("uses verilog daily".toList) ["Verilog".toList, "TCL".toList]).2.1
    ("Verilog".toList) (by decide)

/-- Claim C3: with no configured minimum experience the check always passes;
otherwise the effective threshold is `minExperience - 1` exactly when the relax
flag is set and `minExperience > 0`, and satisfaction is `experience ≥ threshold`.
Concretely, on the text `"4.5 years of experience"` with minimum 5.0, relax=true
is satisfied and relax=false is not. -/
theorem experience_threshold_spec (m e : ℚ) (rx : Bool) :
    exp_ok none rx e = true ∧
    (exp_ok (some m) rx e =
      if rx && decide (0 < m) then decide (m - 1 ≤ e) else decide (m ≤ e)) ∧
    exp_ok (some 5) true (experienceOf ("4.5 years of experience".toList)) = true ∧
    exp_ok (some 5) false (experienceOf ("4.5 years of experience".toList)) = false := by
  have he : experienceOf ("4.5 years of experience".toList) = parseDecimal ['4'] ['5'] := rfl
  have hv : parseDecimal ['4'] ['5'] = 9/2 := by
    norm_num [parseDecimal, show digitsToNat ['4'] = 4 from by decide,
      show digitsToNat ['5'] = 5 from by decide]
  have hrt : effectiveReq 5 true = 4 := by norm_num [effectiveReq]
  have hrf : effectiveReq 5 false = 5 := by norm_num [effectiveReq]
  refine ⟨rfl, ?_, ?_, ?_⟩
  · simp only [exp_ok, effectiveReq]
    split_ifs <;> rfl
  · rw [he, hv]
    simp only [exp_ok, hrt]
    rw [decide_eq_true_eq]
    norm_num
  · rw [he, hv]
    simp only [exp_ok, hrf]
    rw [decide_eq_false_iff_not]
    norm_num

/-- Claim C4: the reported experience is the maximum of the values captured by
the experience pattern (in the program's `re.findall` semantics), and 0 when the
pattern does not occur. -/
theorem experience_is_max (text : List Char) :
    (findExpNums text = [] → experienceOf text = 0) ∧
    (findExpNums text ≠ [] → experienceOf text ∈ findExpNums text) ∧
    ∀ v ∈ findExpNums text, v ≤ experienceOf text := by
  refine ⟨?_, ?_, ?_⟩
  · intro h
    unfold experienceOf
    rw [h]
    rfl
  · intro h
    unfold experienceOf
    cases hl : findExpNums text with
    | nil => exact absurd hl h
    | cons x xs =>
      have := foldl_max_mem xs x
      simpa [pyListMax] using this
  · intro v hv
    unfold experienceOf
    cases hl : findExpNums text with
    | nil => rw [hl] at hv; cases hv
    | cons x xs =>
      rw [hl] at hv
      rcases List.mem_cons.1 hv with h1 | h1
      · subst h1; exact init_le_foldl_max xs v
      · exact mem_le_foldl_max xs x v h1

theorem experience_is_max_witness :
    experienceOf ("3 years and 5.5 yrs".toList) ∈ findExpNums ("3 years and 5.5 yrs".toList) ∧
    pyFloat ("5.5".toList) ≤ experienceOf ("3 years and 5.5 yrs".toList) := by
  have hne : findExpNums ("3 years and 5.5 yrs".toList) =
      [pyFloat ("3".toList), pyFloat ("5.5".toList)] := rfl
  refine ⟨(experience_is_max ("3 years and 5.5 yrs".toList)).2.1 (by rw [hne]; simp),
    (experience_is_max ("3 years and 5.5 yrs".toList)).2.2 (pyFloat ("5.5".toList)) ?_⟩
  rw [hne]
  simp

/-- Claim C9: scoring is a pure function of its inputs (two calls on identical
inputs agree), a batch is the per-document map (each record depends only on its
own document and the criteria), so the record list follows the document list
positionally and permuting the input permutes the records identically. -/
theorem batch_purity (paths paths2 : List Doc) (kws : List (List Char)) (er : Option ℚ)
    (rx : Bool) (ds ts ss : List (List Char)) :
    (∀ d : Doc, recordOf kws er rx ds ts ss d = recordOf kws er rx ds ts ss d) ∧
    run_matching paths kws er rx ds ts ss = paths.map (recordOf kws er rx ds ts ss) ∧
    (∀ i : Nat, (run_matching paths kws er rx ds ts ss)[i]? =
      paths[i]?.map (recordOf kws er rx ds ts ss)) ∧
    (paths.Perm paths2 →
      (run_matching paths kws er rx ds ts ss).Perm (run_matching paths2 kws er rx ds ts ss)) := by
  refine ⟨fun d => rfl, run_matching_eq_map paths kws er rx ds ts ss, ?_, ?_⟩
  · intro i
    rw [run_matching_eq_map]
    exact List.getElem?_map _ _ _
  · intro hp
    rw [run_matching_eq_map, run_matching_eq_map]
    exact hp.map _

theorem batch_purity_witness :
    (run_matching [⟨"a.pdf".toList, some ("x 3 years".toList), none, none⟩,
        ⟨"b.pdf".toList, some ("y".toList), none, none⟩] [] none false [] [] []).Perm
      (run_matching [⟨"b.pdf".toList, some ("y".toList), none, none⟩,
        ⟨"a.pdf".toList, some ("x 3 years".toList), none, none⟩] [] none false [] [] []) :=
  (batch_purity _ _ [] none false [] [] []).2.2.2
    (List.Perm.swap (⟨"b.pdf".toList, some ("y".toList), none, none⟩ : Doc)
      (⟨"a.pdf".toList, some ("x 3 years".toList), none, none⟩ : Doc) [])

/-- Claim C5: text extraction is total — an unknown extension yields the empty
string, a failing PDF extraction yields the empty string (a successful one yields
its text), a DOCX whose structured read and archive fallback both fail yields the
empty string, and a document never aborts the batch (it still contributes exactly
one record). -/
theorem extract_text_never_fails (d : Doc) :
    (extOf d.path ≠ ".pdf".toList → extOf d.path ≠ ".docx".toList →
      extract_text_from_file d = []) ∧
    (extOf d.path = ".pdf".toList → extract_text_from_file d = d.pdfResult.getD []) ∧
    (extOf d.path = ".docx".toList → d.docxParagraphs = none → d.docxXml = none →
      extract_text_from_file d = []) ∧
    ∀ kws er rx ds ts ss, (run_matching [d] kws er rx ds ts ss).length = 1 := by
  refine ⟨?_, ?_, ?_, ?_⟩
  · intro h1 h2
    unfold extract_text_from_file
    rw [if_neg h1, if_neg h2]
  · intro h1
    unfold extract_text_from_file
    rw [if_pos h1]
    cases d.pdfResult <;> rfl
  · intro h1 h2 h3
    unfold extract_text_from_file
    have hne : extOf d.path ≠ ".pdf".toList := by
      rw [h1]; decide
    rw [if_neg hne, if_pos h1, h2, h3]
  · intro kws er rx ds ts ss
    rw [run_matching_eq_map]
    rfl

theorem extract_text_never_fails_witness :
    extract_text_from_file ⟨"cv.txt".toList, some ("boo".toList), none, none⟩ = [] ∧
    extract_text_from_file ⟨"cv.docx".toList, none, none, none⟩ = [] ∧
    extract_text_from_file ⟨"cv.pdf".toList, none, none, none⟩ =
      (Option.getD none []) :=
  ⟨(extract_text_never_fails _).1 (by decide) (by decide),
   (extract_text_never_fails _).2.2.1 (by decide) rfl rfl,
   (extract_text_never_fails _).2.1 (by decide)⟩

/-- Claim C2: the match percentage is `round(matched/total*100, 2)` for a
non-empty keyword list and 0.0 for an empty one, only the keyword list size is
the divisor (domains/tools/skills never change it), and the result is always in
`[0, 100]`. -/
theorem match_pct_spec (text : List Char) (kws dsa tsa ssa dsb tsb ssb : List (List Char))
    (er : Option ℚ) (rx : Bool) (d : Doc) :
    (kws = [] → match_pct kws text = 0) ∧
    (kws ≠ [] → match_pct kws text =
      pyRound2 (((matchedTerms kws text).length : ℚ) / (kws.length : ℚ) * 100)) ∧
    0 ≤ match_pct kws text ∧ match_pct kws text ≤ 100 ∧
    (recordOf kws er rx dsa tsa ssa d).matchPercentage =
      (recordOf kws er rx dsb tsb ssb d).matchPercentage := by
  refine ⟨?_, ?_, match_pct_nonneg kws text, match_pct_le_100 kws text, rfl⟩
  · intro h
    subst h
    rfl
  · intro h
    unfold match_pct
    rw [if_neg (by simpa [List.isEmpty_iff] using h)]

theorem match_pct_spec_witness :
    match_pct [['a']] ['a'] =
      pyRound2 (((matchedTerms [['a']] ['a']).length : ℚ) /
        (([['a']] : List (List Char)).length : ℚ) * 100) :=
  (match_pct_spec ['a'] [['a']] [] [] [] [] [] [] none false
    ⟨"x.pdf".toList, none, none, none⟩).2.1 (by decide)

/-- Claim C1: the report has exactly one record per input document (in input
order), for any input list including the empty one; a document whose extraction
degrades to the empty string still contributes a record, with empty/zero
extracted fields (given non-empty criteria terms) rather than an omitted row. -/
theorem report_length_invariant (paths : List Doc) (kws : List (List Char)) (er : Option ℚ)
    (rx : Bool) (ds ts ss : List (List Char)) :
    (run_matching paths kws er rx ds ts ss).length = paths.length ∧
    ∀ d : Doc, extract_text_from_file d = [] →
      (∀ k ∈ kws, k ≠ []) → (∀ k ∈ ds, k ≠ []) → (∀ k ∈ ts, k ≠ []) → (∀ k ∈ ss, k ≠ []) →
      (recordOf kws er rx ds ts ss d).name = [] ∧
      (recordOf kws er rx ds ts ss d).email = [] ∧
      (recordOf kws er rx ds ts ss d).phone = [] ∧
      (recordOf kws er rx ds ts ss d).experienceYears = 0 ∧
      (recordOf kws er rx ds ts ss d).matchedKeywords = [] ∧
      (recordOf kws er rx ds ts ss d).domain = [] ∧
      (recordOf kws er rx ds ts ss d).tools = [] ∧
      (recordOf kws er rx ds ts ss d).skillset = [] ∧
      (recordOf kws er rx ds ts ss d).matchPercentage = 0 := by
  constructor
  · rw [run_matching_eq_map]
    simp
  intro d htext hk hd ht hs
  have e1 : (recordOf kws er rx ds ts ss d).name =
      (extract_contacts (extract_text_from_file d)).1 := rfl
  have e2 : (recordOf kws er rx ds ts ss d).email =
      (extract_contacts (extract_text_from_file d)).2.1 := rfl
  have e3 : (recordOf kws er rx ds ts ss d).phone =
      (extract_contacts (extract_text_from_file d)).2.2 := rfl
  have e4 : (recordOf kws er rx ds ts ss d).experienceYears =
      experienceOf (extract_text_from_file d) := rfl
  have e5 : (recordOf kws er rx ds ts ss d).matchedKeywords =
      List.intercalate [';'] (matchedTerms kws (extract_text_from_file d)) := rfl
  have e6 : (recordOf kws er rx ds ts ss d).domain =
      List.intercalate [';'] (matchedTerms ds (extract_text_from_file d)) := rfl
  have e7 : (recordOf kws er rx ds ts ss d).tools =
      List.intercalate [';'] (matchedTerms ts (extract_text_from_file d)) := rfl
  have e8 : (recordOf kws er rx ds ts ss d).skillset =
      List.intercalate [';'] (matchedTerms ss (extract_text_from_file d)) := rfl
  have e9 : (recordOf kws er rx ds ts ss d).matchPercentage =
      match_pct kws (extract_text_from_file d) := rfl
  refine ⟨?_, ?_, ?_, ?_, ?_, ?_, ?_, ?_, ?_⟩
  · rw [e1, htext]; rfl
  · rw [e2, htext]; rfl
  · rw [e3, htext]; rfl
  · rw [e4, htext]; rfl
  · rw [e5, htext, matchedTerms_nil kws hk]; rfl
  · rw [e6, htext, matchedTerms_nil ds hd]; rfl
  · rw [e7, htext, matchedTerms_nil ts ht]; rfl
  · rw [e8, htext, matchedTerms_nil ss hs]; rfl
  · rw [e9, htext]
    by_cases hkw : kws = []
    · subst hkw; rfl
    · unfold match_pct
      rw [if_neg (by simpa [List.isEmpty_iff] using hkw), matchedTerms_nil kws hk]
      norm_num [pyRound2_zero]

theorem report_length_invariant_witness :
    (run_matching [⟨"cv.pdf".toList, none, none, none⟩] [['a']] none false [] [] []).length =
      ([⟨"cv.pdf".toList, none, none, none⟩] : List Doc).length ∧
    (recordOf [['a']] none false [] [] [] ⟨"cv.pdf".toList, none, none, none⟩).name = [] ∧
    (recordOf [['a']] none false [] [] [] ⟨"cv.pdf".toList, none, none,
      none⟩).matchPercentage = 0 := by
  have h := report_length_invariant [⟨"cv.pdf".toList, none, none, none⟩]
    [['a']] none false [] [] []
  have h2 := h.2 ⟨"cv.pdf".toList, none, none, none⟩ (by decide) (by decide) (by decide)
    (by decide) (by decide)
  exact ⟨h.1, h2.1, h2.2.2.2.2.2.2.2.2⟩

/-- Capitalizing only the first letter of a token, leaving the remaining
characters unchanged.  This follows the words of the specification ("capitalize
each resulting token's first letter"); the program instead uses Python
`str.capitalize()`, which also lowercases the rest of the token. -/
def capFirstOnly : List Char → List Char
  | [] => []
  | c :: t => c.toUpper :: t

/-- The name-inference algorithm exactly as the specification words it: local
part of the first email, split on `.` or `_`, each token with only its first
letter capitalized, joined with single spaces. -/
def claimedName (text : List Char) : List Char :=
  match findEmails text with
  | [] => []
  | e :: _ =>
    List.intercalate [' ']
      (((splitDotUnderscore (e.takeWhile (fun c => c != '@'))).filter
        (fun p => !p.isEmpty)).map capFirstOnly)

/-- Claim C6, counterexample: on a local part with interior uppercase letters the
program lowercases them (`str.capitalize`), while the claim's
"capitalize each token's first letter" leaves them unchanged: for
`jOHN.doe@x.yy` the program infers `John Doe`, the claim predicts `JOHN Doe`. -/
theorem name_capitalization_counterexample :
    (extract_contacts ("Reach jOHN.doe@x.yy soon".toList)).1 = "John Doe".toList ∧
    claimedName ("Reach jOHN.doe@x.yy soon".toList) = "JOHN Doe".toList ∧
    (extract_contacts ("Reach jOHN.doe@x.yy soon".toList)).1 ≠
      claimedName ("Reach jOHN.doe@x.yy soon".toList) :=
  ⟨by decide, by decide, by decide⟩

/-- Claim C6 as amended: with at least one email, the inferred name is obtained
from the local part of the first email by splitting on `.` or `_`, dropping empty
tokens, Python-capitalizing each token (first character uppercased, the remaining
characters lowercased) and joining with single spaces; with no email the name is
empty.  On the spec's own scenario the result is `Jane Doe`. -/
theorem name_inference_amended (text : List Char) :
    (findEmails text = [] → (extract_contacts text).1 = []) ∧
    (∀ e es, findEmails text = e :: es →
      (extract_contacts text).1 =
        List.intercalate [' ']
          (((splitDotUnderscore (e.takeWhile (fun c => c != '@'))).filter
            (fun p => !p.isEmpty)).map pyCapitalize)) ∧
    (extract_contacts ("Contact: jane.doe@example.com, VLSI engineer".toList)).1 =
      "Jane Doe".toList := by
  refine ⟨?_, ?_, by decide⟩
  · intro h
    unfold extract_contacts
    rw [h]
  · intro e es h
    unfold extract_contacts
    rw [h]

theorem name_inference_amended_witness :
    (extract_contacts ("hi jane.doe@example.com".toList)).1 =
      List.intercalate [' ']
        (((splitDotUnderscore (("jane.doe@example.com".toList).takeWhile
          (fun c => c != '@'))).filter (fun p => !p.isEmpty)).map pyCapitalize) :=
  (name_inference_amended ("hi jane.doe@example.com".toList)).2.1
    ("jane.doe@example.com".toList) [] (by decide)

mutual
/-- The text fragments the DOCX fallback collects, in document order: the text of
every element whose tag is a `t` tag and whose text is non-empty. -/
def tFrags : XmlElem → List (List Char)
  | .node tag txt children =>
    (if isTTag tag && !txt.isEmpty then [txt] else []) ++ tFragsList children
def tFragsList : List XmlElem → List (List Char)
  | [] => []
  | e :: es => tFrags e ++ tFragsList es
end

mutual
theorem collectT_frags (e : XmlElem) :
    collectT e = List.flatten ((tFrags e).map (fun f => f ++ [' '])) := by
  cases e with
  | node tag txt children =>
    rw [collectT, tFrags, collectTList_frags children]
    split_ifs <;> simp
theorem collectTList_frags (es : List XmlElem) :
    collectTList es = List.flatten ((tFragsList es).map (fun f => f ++ [' '])) := by
  cases es with
  | nil => rfl
  | cons e es =>
    rw [collectTList, tFragsList, collectT_frags e, collectTList_frags es]
    simp
end

/-- Claim C8, counterexample: the fallback appends a single space AFTER every
collected fragment, so its output carries a trailing space and is not the
fragments joined with a single space separator: with fragments `a`, `b` the
program produces `"a b "`, while joining with a separator gives `"a b"`. -/
theorem docx_fallback_counterexample :
    extract_text_from_file ⟨"cv.docx".toList, none, none,
      some (XmlElem.node ("document".toList) []
        [XmlElem.node ("t".toList) ("a".toList) [],
         XmlElem.node ("t".toList) ("b".toList) []])⟩ = "a b ".toList ∧
    List.intercalate [' ']
      (tFrags (XmlElem.node ("document".toList) []
        [XmlElem.node ("t".toList) ("a".toList) [],
         XmlElem.node ("t".toList) ("b".toList) []])) = "a b".toList ∧
    extract_text_from_file ⟨"cv.docx".toList, none, none,
      some (XmlElem.node ("document".toList) []
        [XmlElem.node ("t".toList) ("a".toList) [],
         XmlElem.node ("t".toList) ("b".toList) []])⟩ ≠
      List.intercalate [' ']
        (tFrags (XmlElem.node ("document".toList) []
          [XmlElem.node ("t".toList) ("a".toList) [],
           XmlElem.node ("t".toList) ("b".toList) []])) :=
  ⟨by decide, by decide, by decide⟩

/-- Claim C8 as amended: when the structured DOCX reader fails and the archive
fallback succeeds, the extracted text is the concatenation of the texts of all
`t`-tagged elements (namespace-qualified or not, in document order), each
fragment followed by a single space (equivalently: fragments joined by single
spaces, with one trailing space). -/
theorem docx_fallback_amended (d : Doc) (tree : XmlElem) :
    extOf d.path = ".docx".toList → d.docxParagraphs = none → d.docxXml = some tree →
    extract_text_from_file d = List.flatten ((tFrags tree).map (fun f => f ++ [' '])) := by
  intro h1 h2 h3
  have hne : extOf d.path ≠ ".pdf".toList := by
    rw [h1]; decide
  have hc : extract_text_from_file d = collectT tree := by
    unfold extract_text_from_file
    rw [if_neg hne, if_pos h1, h2, h3]
  rw [hc]
  exact collectT_frags tree

theorem docx_fallback_amended_witness :
    extract_text_from_file ⟨"w.docx".toList, none, none,
      some (XmlElem.node ("t".toList) ("hello".toList) [])⟩ =
      List.flatten ((tFrags (XmlElem.node ("t".toList) ("hello".toList) [])).map
        (fun f => f ++ [' '])) :=
  docx_fallback_amended _ _ (by decide) rfl rfl

/-- Claim C7: every email the program collects has the pattern's shape (local
part of word/dot/hyphen characters, `@`, domain, dot, a 2+-letter top-level
segment), occurs in the text at its reported match position, matches are
collected in strictly increasing position order (order of first occurrence), and
duplicates are retained as found (no dedup — shown on a text containing the same
address twice). -/
theorem emails_found_spec (text : List Char) :
    (∀ pm ∈ findEmailsAux text.length 0 text,
      emailShapeP pm.2 ∧ (text.drop pm.1).take pm.2.length = pm.2) ∧
    (findEmailsAux text.length 0 text).Pairwise (fun a b => a.1 < b.1) ∧
    findEmails ("x a@b.cc y a@b.cc z".toList) = ["a@b.cc".toList, "a@b.cc".toList] := by
  refine ⟨?_, ?_, by decide⟩
  · intro pm hpm
    exact (findEmailsAux_mem_spec text text.length 0 text (by simp) pm hpm).2
  · exact findEmailsAux_pairwise text text.length 0 text (by simp)

theorem emails_found_spec_witness :
    emailShapeP ("jane.doe@example.com".toList) ∧
    (("hi jane.doe@example.com".toList).drop 3).take
      (("jane.doe@example.com".toList).length) = "jane.doe@example.com".toList := by
  have h := (emails_found_spec ("hi jane.doe@example.com".toList)).1
    (3, "jane.doe@example.com".toList) (by decide)
  exact ⟨h.1, h.2⟩

end JDMatcher
